import Mathlib

/-!
Shallow embedding of the blockSQP matrix layer and SQP state management
(`blocksqp.cpp`) together with proofs of the specified properties.

Machine `double` arithmetic is modelled by `ℝ`; `int` indices are modelled by
`ℤ` or `ℕ` (the index computations below are exact in `double` for all
representable matrix sizes).  C arrays are modelled either as total functions
(`ℕ → ℝ`, the raw-memory view) or as `List`s with checked access (`get?`)
when out-of-bounds behaviour itself is under study.
-/

namespace BlockSQP

/-! ### SymMatrix packed-triangular indexing (`SymMatrix::operator()`)

`SymMatrix::operator()(i,j)` computes
`pos = (int)(j + i*(m - (i+1.0)/2.0))` when `i < j` and
`pos = (int)(i + j*(m - (j+1.0)/2.0))` otherwise.  Since `i*(i+1)` is even,
the double expression has the exact integer value `j + i*m - i*(i+1)/2`
(resp. with `i`/`j` swapped), so the truncating cast is the identity and the
computation is faithfully represented by exact integer arithmetic. -/

/-- Packed-storage slot of entry `(i,j)` of an `m × m` `SymMatrix`. -/
def symPos (m i j : ℤ) : ℤ :=
  if i < j then j + i * m - i * (i + 1) / 2
  else i + j * m - j * (j + 1) / 2

/-- Element access of a `SymMatrix` with packed storage `a`. -/
def symAccess (m : ℤ) (a : ℤ → ℝ) (i j : ℤ) : ℝ :=
  a (symPos m i j)

/-- One store into packed storage. -/
def symWrite (a : ℤ → ℝ) (p : ℤ) (v : ℝ) : ℤ → ℝ :=
  fun q => if q = p then v else a q

/-- The loop-order list of (row `i`, column `j`) pairs written by the
`SymMatrix` constructors: `j` over columns `0..m-1`, and for each `j`,
`i` over rows `j..m-1` (only the lower triangle is visited). -/
def symCtorPairs (m : ℤ) : List (ℤ × ℤ) :=
  (List.range m.toNat).flatMap fun j =>
    ((List.range (m.toNat - j)).map fun k => ((j : ℤ) + k, (j : ℤ)))

/-- `SymMatrix::SymMatrix(const Matrix &A)`: starting from (arbitrary)
fresh storage `a0`, write `A(i,j)` into slot `symPos m i j` for every
lower-triangular pair, in loop order. -/
def symFromMatrix (m : ℤ) (A : ℤ → ℤ → ℝ) (a0 : ℤ → ℝ) : ℤ → ℝ :=
  (symCtorPairs m).foldl (fun a p => symWrite a (symPos m p.1 p.2) (A p.1 p.2)) a0

/-- `SymMatrix::SymMatrix(const SymMatrix &A)`: same loop, reading the
source through its own packed accessor. -/
def symFromSym (m : ℤ) (src : ℤ → ℝ) (a0 : ℤ → ℝ) : ℤ → ℝ :=
  (symCtorPairs m).foldl
    (fun a p => symWrite a (symPos m p.1 p.2) (symAccess m src p.1 p.2)) a0

theorem symPos_symm (m i j : ℤ) : symPos m i j = symPos m j i := by
  unfold symPos
  rcases lt_trichotomy i j with h | h | h
  · rw [if_pos h, if_neg (not_lt.mpr h.le)]
  · subst h; rfl
  · rw [if_neg (not_lt.mpr h.le), if_pos h]

/-- Element access of a `SymMatrix` is symmetric for arbitrary packed
storage, because `(i,j)` and `(j,i)` resolve to the same packed slot. -/
theorem symAccess_symm (m : ℤ) (a : ℤ → ℝ) (i j : ℤ) :
    symAccess m a i j = symAccess m a j i := by
  unfold symAccess; rw [symPos_symm]

/-- C6: for all valid indices `0 ≤ i, j < m`, `SymMatrix` element access
satisfies `access(i,j) = access(j,i)`, both for a `SymMatrix` built from a
dense `Matrix` (`SymMatrix::SymMatrix(const Matrix&)`, copying the lower
triangle) and for one built by copy from another `SymMatrix`; moreover
`(i,j)` and `(j,i)` resolve to the same packed-storage slot. -/
theorem symMatrix_access_symmetric (m i j : ℤ) (A : ℤ → ℤ → ℝ) (src a0 a0' : ℤ → ℝ)
    (hi : 0 ≤ i) (hi' : i < m) (hj : 0 ≤ j) (hj' : j < m) :
    symAccess m (symFromMatrix m A a0) i j = symAccess m (symFromMatrix m A a0) j i ∧
    symAccess m (symFromSym m src a0') i j = symAccess m (symFromSym m src a0') j i ∧
    symPos m i j = symPos m j i :=
  ⟨symAccess_symm _ _ _ _, symAccess_symm _ _ _ _, symPos_symm _ _ _⟩

/-- Witness for C6 at `m = 3`, `i = 0`, `j = 2`. -/
theorem symMatrix_access_symmetric_witness :
    symAccess 3 (symFromMatrix 3 (fun i j => (i * 10 + j : ℝ)) (fun _ => 0)) 0 2 =
      symAccess 3 (symFromMatrix 3 (fun i j => (i * 10 + j : ℝ)) (fun _ => 0)) 2 0 ∧
    symAccess 3 (symFromSym 3 (fun p => (p : ℝ)) (fun _ => 0)) 0 2 =
      symAccess 3 (symFromSym 3 (fun p => (p : ℝ)) (fun _ => 0)) 2 0 ∧
    symPos 3 0 2 = symPos 3 2 0 :=
  symMatrix_access_symmetric 3 0 2 (fun i j => (i * 10 + j : ℝ)) (fun p => (p : ℝ))
    (fun _ => 0) (fun _ => 0) (by norm_num) (by norm_num) (by norm_num) (by norm_num)

/-! ### Dense `Matrix`: column-major storage, views (`Matrix::operator()`,
`Matrix::Submatrix`)

A `Matrix` descriptor holds dimensions `m × n`, leading dimension `ldim`
and (for the aliasing model) the offset of its first element inside the
underlying flat storage; `operator()(i,j)` dereferences
`array[i + j*ldim]`.  `Submatrix(A, M, N, i0, j0)` sets
`array = &A.array[i0 + j0*A.ldim]` and `ldim = A.ldim`. -/

/-- Descriptor of a (possibly viewing) dense matrix over a flat store. -/
structure MatDesc where
  m : ℕ
  n : ℕ
  ldim : ℕ
  off : ℕ

/-- `Matrix::operator()(i,j)` as a read: `array[off + i + j*ldim]`. -/
def matRead (d : MatDesc) (st : ℕ → ℝ) (i j : ℕ) : ℝ :=
  st (d.off + (i + j * d.ldim))

/-- `Matrix::operator()(i,j) = v` as a store update. -/
def matWrite (d : MatDesc) (st : ℕ → ℝ) (i j : ℕ) (v : ℝ) : ℕ → ℝ :=
  Function.update st (d.off + (i + j * d.ldim)) v

/-- `Matrix::Submatrix(A, M, N, i0, j0)`: non-owning view of `A` with the
parent's leading dimension and offset `i0 + j0*A.ldim` into the parent. -/
def submatrixDesc (A : MatDesc) (M N i0 j0 : ℕ) : MatDesc :=
  { m := M, n := N, ldim := A.ldim, off := A.off + (i0 + j0 * A.ldim) }

/-- C8: write-then-read on a `Matrix` returns the written value at every
valid index pair, and a `Submatrix` view at offset `(i0,j0)` aliases the
parent entry `(i0+i, j0+j)`: reads agree, a write through the view is
seen when reading the parent, and a write to the parent is seen when
reading the view. -/
theorem matrix_write_read_view_alias (A : MatDesc) (st : ℕ → ℝ)
    (M N i0 j0 i j : ℕ) (v : ℝ)
    (hM : i0 + M ≤ A.m) (hN : j0 + N ≤ A.n) (hi : i < M) (hj : j < N)
    (him : i < A.m) (hjn : j < A.n) :
    matRead A (matWrite A st i j v) i j = v ∧
    matRead (submatrixDesc A M N i0 j0) st i j = matRead A st (i0 + i) (j0 + j) ∧
    matRead A (matWrite (submatrixDesc A M N i0 j0) st i j v) (i0 + i) (j0 + j) = v ∧
    matRead (submatrixDesc A M N i0 j0) (matWrite A st (i0 + i) (j0 + j) v) i j = v := by
  have hidx : (submatrixDesc A M N i0 j0).off +
      (i + j * (submatrixDesc A M N i0 j0).ldim) =
      A.off + ((i0 + i) + (j0 + j) * A.ldim) := by
    simp only [submatrixDesc]; ring
  refine ⟨?_, ?_, ?_, ?_⟩
  · simp [matRead, matWrite]
  · simp only [matRead, submatrixDesc] at *
    rw [show A.off + (i0 + j0 * A.ldim) + (i + j * A.ldim) =
      A.off + ((i0 + i) + (j0 + j) * A.ldim) by ring]
  · simp only [matRead, matWrite]
    rw [hidx, Function.update_same]
  · simp only [matRead, matWrite]
    rw [hidx, Function.update_same]

/-- Witness for C8: a `4 × 4` owner, a `2 × 2` view at offset `(1,1)`,
index `(0,1)` in the view, value `42`. -/
theorem matrix_write_read_view_alias_witness :
    matRead ⟨4, 4, 4, 0⟩ (matWrite ⟨4, 4, 4, 0⟩ (fun _ => 0) 0 1 42) 0 1 = 42 ∧
    matRead (submatrixDesc ⟨4, 4, 4, 0⟩ 2 2 1 1) (fun _ => 0) 0 1 =
      matRead ⟨4, 4, 4, 0⟩ (fun _ => 0) (1 + 0) (1 + 1) ∧
    matRead ⟨4, 4, 4, 0⟩
      (matWrite (submatrixDesc ⟨4, 4, 4, 0⟩ 2 2 1 1) (fun _ => 0) 0 1 42) (1 + 0) (1 + 1) = 42 ∧
    matRead (submatrixDesc ⟨4, 4, 4, 0⟩ 2 2 1 1)
      (matWrite ⟨4, 4, 4, 0⟩ (fun _ => 0) (1 + 0) (1 + 1) 42) 0 1 = 42 :=
  matrix_write_read_view_alias ⟨4, 4, 4, 0⟩ (fun _ => 0) 2 2 1 1 0 1 42
    (by norm_num) (by norm_num) (by norm_num) (by norm_num) (by norm_num) (by norm_num)

/-! ### SQPiterate block partition (`SQPiterate::SQPiterate`)

The constructor chooses one of three Hessian block partitions:
single full block (`blockHess == 0 || prob->nBlocks == 1`), the hybrid
two-block strategy (`blockHess == 2 && prob->nBlocks > 1`), or a copy of
the problem-supplied partition. -/

/-- The fields of `Problemspec` relevant to the block partition. -/
structure ProbSpec where
  nVar : ℤ
  nBlocks : ℕ
  blockIdx : List ℤ

/-- Number of blocks chosen by `SQPiterate::SQPiterate`. -/
def sqpNBlocks (blockHess : ℤ) (p : ProbSpec) : ℕ :=
  if blockHess = 0 ∨ p.nBlocks = 1 then 1
  else if blockHess = 2 ∧ 1 < p.nBlocks then 2
  else p.nBlocks

/-- Block boundary array built by `SQPiterate::SQPiterate`. -/
def sqpBlockIdx (blockHess : ℤ) (p : ProbSpec) : List ℤ :=
  if blockHess = 0 ∨ p.nBlocks = 1 then [0, p.nVar]
  else if blockHess = 2 ∧ 1 < p.nBlocks then
    [0, p.blockIdx.getD (p.nBlocks - 1) 0, p.nVar]
  else p.blockIdx

/-- The boundary-array invariant: length `nB + 1`, first entry `0`, last
entry `nVar`, strictly increasing. -/
def BlockIdxInv (nVar : ℤ) (nB : ℕ) (L : List ℤ) : Prop :=
  L.length = nB + 1 ∧ L.getD 0 0 = 0 ∧ L.getD nB 0 = nVar ∧ L.Pairwise (· < ·)

theorem blockIdxInv_getD_lt {nVar : ℤ} {nB : ℕ} {L : List ℤ}
    (h : BlockIdxInv nVar nB L) {a b : ℕ} (hab : a < b) (hb : b ≤ nB) :
    L.getD a 0 < L.getD b 0 := by
  obtain ⟨hlen, -, -, hpw⟩ := h
  have ha' : a < L.length := by omega
  have hb' : b < L.length := by omega
  rw [L.getD_eq_get 0 ha', L.getD_eq_get 0 hb']
  exact List.pairwise_iff_get.mp hpw ⟨a, ha'⟩ ⟨b, hb'⟩ hab

/-- C7: for each of the three block-partition strategies, provided the
problem's own boundary array satisfies the invariant, the constructed
`blockIdx` has length `nBlocks + 1`, starts at `0`, ends at `nVar`, and
is strictly increasing. -/
theorem sqpBlockIdx_invariant (blockHess : ℤ) (p : ProbSpec)
    (hB : 1 ≤ p.nBlocks) (hInv : BlockIdxInv p.nVar p.nBlocks p.blockIdx) :
    BlockIdxInv p.nVar (sqpNBlocks blockHess p) (sqpBlockIdx blockHess p) := by
  have hNVar : (0 : ℤ) < p.nVar := by
    have := blockIdxInv_getD_lt hInv (a := 0) (b := p.nBlocks) (by omega) le_rfl
    rw [hInv.2.1, hInv.2.2.1] at this; exact this
  unfold sqpNBlocks sqpBlockIdx
  by_cases h1 : blockHess = 0 ∨ p.nBlocks = 1
  · rw [if_pos h1, if_pos h1]
    exact ⟨rfl, rfl, rfl, by simpa using hNVar⟩
  · rw [if_neg h1, if_neg h1]
    by_cases h2 : blockHess = 2 ∧ 1 < p.nBlocks
    · rw [if_pos h2, if_pos h2]
      have hmid1 : (0 : ℤ) < p.blockIdx.getD (p.nBlocks - 1) 0 := by
        have := blockIdxInv_getD_lt hInv (a := 0) (b := p.nBlocks - 1)
          (by omega) (by omega)
        rw [hInv.2.1] at this; exact this
      have hmid2 : p.blockIdx.getD (p.nBlocks - 1) 0 < p.nVar := by
        have := blockIdxInv_getD_lt hInv (a := p.nBlocks - 1) (b := p.nBlocks)
          (by omega) le_rfl
        rw [hInv.2.2.1] at this; exact this
      refine ⟨rfl, rfl, rfl,
        List.Pairwise.cons ?_ (List.Pairwise.cons ?_
          (List.Pairwise.cons (by simp) List.Pairwise.nil))⟩
      · intro b hb
        simp only [List.mem_cons, List.not_mem_nil, or_false] at hb
        rcases hb with rfl | rfl
        · exact hmid1
        · exact hNVar
      · intro b hb
        simp only [List.mem_cons, List.not_mem_nil, or_false] at hb
        rcases hb with rfl
        exact hmid2
    · rw [if_neg h2, if_neg h2]
      exact hInv

/-- Witness for C7: hybrid strategy (`blockHess = 2`) on a problem with
`nVar = 4` and boundaries `[0, 1, 4]`. -/
theorem sqpBlockIdx_invariant_witness :
    BlockIdxInv (ProbSpec.mk 4 2 [0, 1, 4]).nVar
      (sqpNBlocks 2 (ProbSpec.mk 4 2 [0, 1, 4]))
      (sqpBlockIdx 2 (ProbSpec.mk 4 2 [0, 1, 4])) :=
  sqpBlockIdx_invariant 2 (ProbSpec.mk 4 2 [0, 1, 4]) (by norm_num)
    ⟨by decide, by decide, by decide, by decide⟩

/-! ### Constraint-violation norms (`l2ConstraintNorm`)

In `l2ConstraintNorm` the simple-bound loop body is a single `if`
(upper bound only); the lower-bound `if` sits after the loop, so it runs
once with `i = nVar`.  We give two embeddings: a raw-memory one over
total functions (the value the code computes when the out-of-range read
returns whatever sits at `array[nVar]`), and a bounds-checked one over
lists, where the trailing read fails. -/

theorem foldl_range_add (n : ℕ) (c : ℝ) (f : ℝ → ℕ → ℝ) (g : ℕ → ℝ)
    (hf : ∀ acc i, f acc i = acc + g i) :
    (List.range n).foldl f c = c + ∑ i in Finset.range n, g i := by
  induction n with
  | zero => simp
  | succ n ih =>
    rw [List.range_succ, List.foldl_append, List.foldl_cons, List.foldl_nil, ih,
      hf, Finset.sum_range_succ]
    ring

/-- `l2ConstraintNorm(xi, constr, bu, bl)` over raw memory: `xi`, `constr`,
`bu`, `bl` are the underlying arrays, `nVar = xi.M()`, `nCon = constr.M()`. -/
noncomputable def l2ConstraintNorm (nVar nCon : ℕ) (xi constr bu bl : ℕ → ℝ) : ℝ :=
  let n1 := (List.range nVar).foldl
    (fun acc i => if bu i < xi i then acc + (xi i - bu i) else acc) 0
  let n2 := if xi nVar < bl nVar then n1 + (bl nVar - xi nVar) else n1
  let n3 := (List.range nCon).foldl
    (fun acc i =>
      if bu (nVar + i) < constr i then acc + (constr i - bu (nVar + i)) ^ 2
      else if constr i < bl (nVar + i) then acc + (bl (nVar + i) - constr i) ^ 2
      else acc) n2
  Real.sqrt n3

/-- C2: the value computed by `l2ConstraintNorm` is the square root of:
the sum over variables of upper-bound violations only, plus a single
lower-bound term evaluated at index `nVar` (the final value of the loop
index), plus the sum over general constraints of both-sided squared
violations.  Consequently the result never depends on the lower bounds
`bl(0..nVar-1)` of the variables: any `bl` agreeing with the original
from index `nVar` on gives the same value. -/
theorem l2ConstraintNorm_structure (nVar nCon : ℕ) (xi constr bu bl bl' : ℕ → ℝ)
    (hbl : ∀ k, nVar ≤ k → bl' k = bl k) :
    l2ConstraintNorm nVar nCon xi constr bu bl =
      Real.sqrt
        ((∑ i in Finset.range nVar, if bu i < xi i then xi i - bu i else 0) +
          (if xi nVar < bl nVar then bl nVar - xi nVar else 0) +
          ∑ i in Finset.range nCon,
            (if bu (nVar + i) < constr i then (constr i - bu (nVar + i)) ^ 2
             else if constr i < bl (nVar + i) then (bl (nVar + i) - constr i) ^ 2
             else 0)) ∧
    l2ConstraintNorm nVar nCon xi constr bu bl' =
      l2ConstraintNorm nVar nCon xi constr bu bl := by
  have key : ∀ b : ℕ → ℝ,
      l2ConstraintNorm nVar nCon xi constr bu b =
        Real.sqrt
          ((∑ i in Finset.range nVar, if bu i < xi i then xi i - bu i else 0) +
            (if xi nVar < b nVar then b nVar - xi nVar else 0) +
            ∑ i in Finset.range nCon,
              (if bu (nVar + i) < constr i then (constr i - bu (nVar + i)) ^ 2
               else if constr i < b (nVar + i) then (b (nVar + i) - constr i) ^ 2
               else 0)) := by
    intro b
    simp only [l2ConstraintNorm]
    rw [foldl_range_add nVar 0 _ (fun i => if bu i < xi i then xi i - bu i else 0)
      (fun acc i => by by_cases h : bu i < xi i <;> simp [h]),
      foldl_range_add nCon _ _
        (fun i =>
          if bu (nVar + i) < constr i then (constr i - bu (nVar + i)) ^ 2
          else if constr i < b (nVar + i) then (b (nVar + i) - constr i) ^ 2
          else 0)
        (fun acc i => by
          by_cases h1 : bu (nVar + i) < constr i
          · simp [h1]
          · by_cases h2 : constr i < b (nVar + i) <;> simp [h1, h2])]
    congr 1
    split_ifs <;> ring
  refine ⟨key bl, ?_⟩
  rw [key bl, key bl']
  congr 2
  · rw [hbl nVar le_rfl]
  · exact Finset.sum_congr rfl fun i _ => by rw [hbl (nVar + i) (Nat.le_add_right _ _)]

/-- Witness for C2: `nVar = 1`, `nCon = 1`, `xi = 2`, `bu ≡ 1`, `bl ≡ 3`,
`constr = 5`: upper violation `1`, trailing lower term `1`, squared
constraint violation `16`. -/
theorem l2ConstraintNorm_structure_witness :
    l2ConstraintNorm 1 1 (fun _ => 2) (fun _ => 5) (fun _ => 1) (fun _ => 3) =
      Real.sqrt ((1 : ℝ) + 1 + 16) := by
  have h := (l2ConstraintNorm_structure 1 1 (fun _ => 2) (fun _ => 5) (fun _ => 1)
    (fun _ => 3) (fun _ => 3) (fun _ _ => rfl)).1
  rw [h]
  norm_num [Finset.sum_range_one]

/-- `l2ConstraintNorm` with bounds-checked array accesses: every array
read goes through `List.get?`, and the whole computation fails (is
`none`) as soon as any read is out of range.  `xi` has `nVar` entries,
`bu`/`bl` pack the `nVar` variable bounds followed by the `nCon`
constraint bounds. -/
noncomputable def l2ConstraintNormChecked (xi constr bu bl : List ℝ) : Option ℝ :=
  let nVar := xi.length
  do
    let n1 ← (List.range nVar).foldlM (fun (acc : ℝ) i => do
        let x ← xi.get? i
        let u ← bu.get? i
        pure (if u < x then acc + (x - u) else acc)) (0 : ℝ)
    let xN ← xi.get? nVar
    let blN ← bl.get? nVar
    let n2 := if xN < blN then n1 + (blN - xN) else n1
    let n3 ← (List.range constr.length).foldlM (fun (acc : ℝ) i => do
        let ci ← constr.get? i
        let u ← bu.get? (nVar + i)
        let lo ← bl.get? (nVar + i)
        pure (if u < ci then acc + (ci - u) ^ 2
              else if ci < lo then acc + (lo - ci) ^ 2
              else acc)) n2
    pure (Real.sqrt n3)

/-- C10: the lower-bound check after the simple-bound loop reads
`xi(nVar)`, one past the end of the variable vector, so in the checked
embedding `l2ConstraintNorm` fails for every input; and the bound it
compares against, `bl(nVar)`, is the first general-constraint bound of
the packed bound array, not a variable bound. -/
theorem l2ConstraintNormChecked_out_of_bounds (xi constr bu blVars blCons : List ℝ)
    (hlen : blVars.length = xi.length) :
    l2ConstraintNormChecked xi constr bu (blVars ++ blCons) = none ∧
    (blVars ++ blCons).get? xi.length = blCons.get? 0 := by
  constructor
  · have hx : xi.get? xi.length = none := List.get?_eq_none.mpr le_rfl
    unfold l2ConstraintNormChecked
    cases h : (List.range xi.length).foldlM (fun (acc : ℝ) i => do
        let x ← xi.get? i
        let u ← bu.get? i
        pure (if u < x then acc + (x - u) else acc)) (0 : ℝ) with
    | none => simp [h]
    | some v => simp [h, hx]
  · rw [← hlen, List.get?_append_right le_rfl, Nat.sub_self]

/-- Witness for C10: `xi = [1]`, one constraint, packed bounds
`[0] ++ [5]`. -/
theorem l2ConstraintNormChecked_out_of_bounds_witness :
    l2ConstraintNormChecked [1] [2] [0, 0] ([0] ++ [5]) = none ∧
    ([0] ++ ([5] : List ℝ)).get? ([(1 : ℝ)]).length = ([5] : List ℝ).get? 0 :=
  l2ConstraintNormChecked_out_of_bounds [1] [2] [0, 0] [0] [5] rfl

/-! ### The default `Problemspec::evaluate` adapter

`Problemspec::evaluate(xi, objval, constr, info)` sets `*info = 0`, calls
the sparse-Jacobian virtual `evaluate`, and then guards the dense call
with `if (info)` — a test of the POINTER `info` (the address of the
caller's status variable, never null), not of the status value `*info`
that the comment "If sparse version is not implemented, try dense
version" describes. -/

/-- Result of one virtual `evaluate` call: objective, residuals, status. -/
structure EvalOut where
  objval : ℝ
  constr : ℕ → ℝ
  info : ℤ

/-- The two virtual `evaluate` variants of a concrete `Problemspec`. -/
structure ProblemEval where
  sparseEval : (ℕ → ℝ) → EvalOut
  denseEval : (ℕ → ℝ) → EvalOut

/-- Adapter outcome plus the call trace we reason about. -/
structure AdapterResult where
  out : EvalOut
  denseCalled : Bool

/-- The default residual-only adapter.  `infoPointerNonNull` models the
C condition `if (info)`: `info` is the address of the caller's local
status variable, hence non-null whenever it may legally be
dereferenced (the adapter has already stored `*info = 0` through it). -/
def evaluateDefault (p : ProblemEval) (xi : ℕ → ℝ) : AdapterResult :=
  let sparseOut := p.sparseEval xi
  let infoPointerNonNull : Bool := true
  if infoPointerNonNull then
    { out := p.denseEval xi, denseCalled := true }
  else
    { out := sparseOut, denseCalled := false }

/-- C1 (divergence): even when the sparse variant reports success
(`*info = 0`), the adapter still invokes the dense variant — whose
outputs replace the sparse ones — because `if (info)` tests the pointer
and not the status code. -/
theorem evaluateDefault_always_calls_dense (p : ProblemEval) (xi : ℕ → ℝ)
    (hs : (p.sparseEval xi).info = 0) :
    (evaluateDefault p xi).denseCalled = true ∧
    (evaluateDefault p xi).out = p.denseEval xi :=
  ⟨rfl, rfl⟩

/-- Witness for C1: a problem whose sparse `evaluate` succeeds with
`info = 0`, yet the dense variant is called and its result returned. -/
theorem evaluateDefault_always_calls_dense_witness :
    (evaluateDefault
      (ProblemEval.mk (fun _ : ℕ → ℝ => EvalOut.mk 1 (fun _ : ℕ => 2) 0)
        (fun _ : ℕ → ℝ => EvalOut.mk 7 (fun _ : ℕ => 8) 0)) (fun _ : ℕ => 0)).denseCalled
        = true ∧
    (evaluateDefault
      (ProblemEval.mk (fun _ : ℕ → ℝ => EvalOut.mk 1 (fun _ : ℕ => 2) 0)
        (fun _ : ℕ → ℝ => EvalOut.mk 7 (fun _ : ℕ => 8) 0)) (fun _ : ℕ => 0)).out =
      EvalOut.mk 7 (fun _ : ℕ => 8) 0 :=
  evaluateDefault_always_calls_dense
    (ProblemEval.mk (fun _ : ℕ → ℝ => EvalOut.mk 1 (fun _ : ℕ => 2) 0)
      (fun _ : ℕ → ℝ => EvalOut.mk 7 (fun _ : ℕ => 8) 0)) (fun _ : ℕ => 0) rfl

/-! ### `Matrix::Dimension` and `Matrix::Submatrix` misuse reporting

`Dimension` with changed dimensions checks `tflag` and calls
`Error("Cannot set new dimension for Submatrix")` on a view, leaving the
matrix unchanged.  `Submatrix` calls `Error` only when the requested
region exceeds the parent (`i0+M > A.m || j0+N > A.n`); it never
inspects the receiver's `tflag`, so re-viewing an existing view proceeds
silently.  Each operation is modelled as new shape state plus the flag
"was `Error` signalled". -/

/-- Shape-and-ownership state of a `Matrix`. -/
structure MatShape where
  m : ℤ
  n : ℤ
  ldim : ℤ
  tflag : Bool

/-- `Matrix::Dimension(M, N, LDIM)`; `malloc` raises `ldim` to `m` when
needed, so the reallocated shape carries `max LDIM M`. -/
def dimensionOp (A : MatShape) (M N LDIM : ℤ) : MatShape × Bool :=
  if M ≠ A.m ∨ N ≠ A.n ∨ (LDIM ≠ A.ldim ∧ LDIM ≠ -1) then
    if A.tflag then (A, true)
    else (MatShape.mk M N (max LDIM M) false, false)
  else (A, false)

/-- `B.Submatrix(A, M, N, i0, j0)`: `Error` fires only on an
out-of-parent region; the view is installed regardless, with the
parent's leading dimension, and `B.tflag` is never examined. -/
def submatrixOp (B A : MatShape) (M N i0 j0 : ℤ) : MatShape × Bool :=
  if A.m < i0 + M ∨ A.n < j0 + N then
    (MatShape.mk M N A.ldim true, true)
  else
    (MatShape.mk M N A.ldim true, false)

/-- C4 counterexample: re-viewing a `Matrix` that is already a view
(`tflag` set) with an in-range region signals no error at all — the
operation is silently accepted, contradicting the claim that it is
reported. -/
theorem submatrix_reView_silent :
    (submatrixOp (MatShape.mk 2 2 3 true) (MatShape.mk 3 3 3 false) 2 2 0 0).2 = false := by
  decide

/-- C4 amended: `Dimension` with changed dimensions on a view signals an
error and leaves the matrix unchanged; `Submatrix`, by contrast, signals
an error only when the requested region exceeds the parent and never
checks whether the receiver is already a view — with an in-range region
it silently re-points any receiver, view or owner. -/
theorem dimension_view_reported_submatrix_not (A : MatShape) (M N LDIM : ℤ)
    (ht : A.tflag = true)
    (hch : M ≠ A.m ∨ N ≠ A.n ∨ (LDIM ≠ A.ldim ∧ LDIM ≠ -1)) :
    (dimensionOp A M N LDIM).2 = true ∧ (dimensionOp A M N LDIM).1 = A ∧
    ∀ (B P : MatShape) (M' N' i0 j0 : ℤ),
      i0 + M' ≤ P.m → j0 + N' ≤ P.n → (submatrixOp B P M' N' i0 j0).2 = false := by
  refine ⟨?_, ?_, ?_⟩
  · unfold dimensionOp
    rw [if_pos hch, if_pos ht]
  · unfold dimensionOp
    rw [if_pos hch, if_pos ht]
  · intro B P M' N' i0 j0 h1 h2
    unfold submatrixOp
    rw [if_neg (by push_neg; exact ⟨h1, h2⟩)]

/-- Witness for C4's amended statement: a `2 × 2` view resized to
`3 × 3` (error, unchanged), and an in-range re-view (no error). -/
theorem dimension_view_reported_submatrix_not_witness :
    (dimensionOp (MatShape.mk 2 2 3 true) 3 3 (-1)).2 = true ∧
    (dimensionOp (MatShape.mk 2 2 3 true) 3 3 (-1)).1 = MatShape.mk 2 2 3 true ∧
    ∀ (B P : MatShape) (M' N' i0 j0 : ℤ),
      i0 + M' ≤ P.m → j0 + N' ≤ P.n → (submatrixOp B P M' N' i0 j0).2 = false :=
  dimension_view_reported_submatrix_not (MatShape.mk 2 2 3 true) 3 3 (-1) rfl
    (Or.inl (by decide))

/-! ### `RestorationProblem::initialize` slack seeding and the converted
residual

`initialize` resets the original variables to `xiRef`, evaluates the
parent there (`constrRef`), and runs, for each constraint,
`if (constrRef(i) <= bl) slack(i) = constrRef(i) - bl; else if
(constrRef(i) > bu) slack(i) = constrRef(i) - bu;` — with no `else`
branch, so an unviolated constraint keeps whatever slack value the
incoming iterate carried.  `RestorationProblem::evaluate` then computes
`constr(i) -= slack(i)`. -/

/-- The slack value after `initialize`'s seeding loop. -/
noncomputable def seedSlack (blC buC constrRef slack0 : ℕ → ℝ) (i : ℕ) : ℝ :=
  if constrRef i ≤ blC i then constrRef i - blC i
  else if buC i < constrRef i then constrRef i - buC i
  else slack0 i

/-- The full variable vector after `RestorationProblem::initialize`:
original variables reset to `xiRef`, slacks seeded, the rest of the
incoming vector untouched. -/
noncomputable def restInitXi (nVarP nCon : ℕ) (xiRef blC buC constrRef xi0 : ℕ → ℝ) :
    ℕ → ℝ :=
  fun k =>
    if k < nVarP then xiRef k
    else if k < nVarP + nCon then
      seedSlack blC buC constrRef (fun i => xi0 (nVarP + i)) (k - nVarP)
    else xi0 k

/-- The converted constraint residual computed by
`RestorationProblem::evaluate`: parent residual minus slack. -/
def restResidual (constrP slack : ℕ → ℝ) (i : ℕ) : ℝ :=
  constrP i - slack i

/-- C3 counterexample: one original variable, one constraint with bounds
`[0, 2]`, parent residual `1` at the reference point — feasible, neither
bound violated — and incoming slack `0`.  The seeded slack stays `0` and
the converted residual is `1`, not `0`. -/
theorem restoration_seed_residual_nonzero :
    ((0 : ℝ) < 1 ∧ (1 : ℝ) ≤ 2) ∧
    restResidual (fun _ => 1)
      (fun i => restInitXi 1 1 (fun _ => 0) (fun _ => 0) (fun _ => 2) (fun _ => 1)
        (fun _ => 0) (1 + i)) 0 = 1 ∧
    (1 : ℝ) ≠ 0 := by
  refine ⟨⟨by norm_num, by norm_num⟩, ?_, by norm_num⟩
  norm_num [restResidual, restInitXi, seedSlack]

/-- C3 amended: `initialize` resets the original variables to the
reference point; for each constraint whose reference value violates a
bound the seeded slack makes the converted residual `constr(i) - slack(i)`
equal exactly the violated bound (the constraint is satisfied with
equality), while a constraint violating no bound keeps its incoming
slack, so its residual is the parent residual minus that incoming slack
— in general nonzero even at a feasible reference point. -/
theorem restoration_seed_residual (nVarP nCon : ℕ)
    (xiRef blC buC constrRef xi0 : ℕ → ℝ) (i : ℕ) (hi : i < nCon) :
    (∀ k, k < nVarP → restInitXi nVarP nCon xiRef blC buC constrRef xi0 k = xiRef k) ∧
    (constrRef i ≤ blC i →
      restResidual constrRef
        (fun j => restInitXi nVarP nCon xiRef blC buC constrRef xi0 (nVarP + j)) i = blC i) ∧
    (¬ constrRef i ≤ blC i → buC i < constrRef i →
      restResidual constrRef
        (fun j => restInitXi nVarP nCon xiRef blC buC constrRef xi0 (nVarP + j)) i = buC i) ∧
    (¬ constrRef i ≤ blC i → ¬ buC i < constrRef i →
      restResidual constrRef
        (fun j => restInitXi nVarP nCon xiRef blC buC constrRef xi0 (nVarP + j)) i =
        constrRef i - xi0 (nVarP + i)) := by
  have hslot : restInitXi nVarP nCon xiRef blC buC constrRef xi0 (nVarP + i) =
      seedSlack blC buC constrRef (fun j => xi0 (nVarP + j)) i := by
    unfold restInitXi
    rw [if_neg (by omega), if_pos (by omega), Nat.add_sub_cancel_left]
  refine ⟨?_, ?_, ?_, ?_⟩
  · intro k hk
    unfold restInitXi
    rw [if_pos hk]
  · intro h
    simp only [restResidual, hslot, seedSlack, if_pos h]
    ring
  · intro h1 h2
    simp only [restResidual, hslot, seedSlack, if_neg h1, if_pos h2]
    ring
  · intro h1 h2
    simp only [restResidual, hslot, seedSlack, if_neg h1, if_neg h2]

/-- Witness for C3's amended statement: one variable, one constraint,
reference residual `5` above the upper bound `2`: converted residual
equals the bound. -/
theorem restoration_seed_residual_witness :
    restResidual (fun _ => 5)
      (fun j => restInitXi 1 1 (fun _ => 0) (fun _ => 0) (fun _ => 2) (fun _ => 5)
        (fun _ => 0) (1 + j)) 0 = (fun _ : ℕ => (2 : ℝ)) 0 :=
  (restoration_seed_residual 1 1 (fun _ => 0) (fun _ => 0) (fun _ => 2) (fun _ => 5)
      (fun _ => 0) 0 (by norm_num)).2.2.1 (by norm_num) (by norm_num)

/-! ### `RestorationProblem::evaluate`: objective versus gradient

The returned objective weighs each squared deviation from the reference
point by `diagScale(i)` to the first power
(`regTerm += diagScale(i) * diff * diff`), while the returned gradient
weighs the deviation by `diagScale(i)` squared
(`gradObj(i) = zeta * diagScale(i) * diagScale(i) * (xi(i) - xiRef(i))`),
in both the sparse and the dense variant. -/

/-- `zeta = 1.0e-3`, set by `RestorationProblem::initialize`. -/
noncomputable def zetaConst : ℝ := 1 / 1000

/-- `rho = 1.0e3`, set by `RestorationProblem::initialize`. -/
def rhoConst : ℝ := 1000

/-- The diagonal scaling set by `initialize`: `1` where `|xiRef| ≤ 1`,
else `1/|xiRef|`. -/
noncomputable def diagScaleOf (xiRef : ℕ → ℝ) (i : ℕ) : ℝ :=
  if 1 < |xiRef i| then 1 / |xiRef i| else 1

/-- The objective value returned by both `RestorationProblem::evaluate`
variants: `0.5·ρ·Σ slackᵢ² + 0.5·ζ·Σ diagScaleᵢ·(xiᵢ - xiRefᵢ)²`
(the slack `i` is the variable `nVarP + i`). -/
noncomputable def restObj (nVarP nCon : ℕ) (diagScale xiRef : ℕ → ℝ) (xi : ℕ → ℝ) : ℝ :=
  0.5 * rhoConst * (∑ i in Finset.range nCon, xi (nVarP + i) * xi (nVarP + i)) +
    0.5 * zetaConst *
      ∑ i in Finset.range nVarP, diagScale i * ((xi i - xiRef i) * (xi i - xiRef i))

/-- The gradient written by the sparse variant: regularization part for
`i < nVarP`, `rho * xi(i)` for the slack part. -/
noncomputable def restGradSparse (nVarP : ℕ) (diagScale xiRef xi : ℕ → ℝ) (i : ℕ) : ℝ :=
  if i < nVarP then zetaConst * diagScale i * diagScale i * (xi i - xiRef i)
  else rhoConst * xi i

/-- The gradient written by the dense variant: identical regularization
part; the slack part reads `slack(i)` at the raw flat index `i`, i.e.
`xi(nVarP + i)`. -/
noncomputable def restGradDense (nVarP : ℕ) (diagScale xiRef xi : ℕ → ℝ) (i : ℕ) : ℝ :=
  if i < nVarP then zetaConst * diagScale i * diagScale i * (xi i - xiRef i)
  else rhoConst * xi (nVarP + i)

/-- C9: for a variable `i` with `|xiRef(i)| > 1` (so `diagScale(i) ≠ 1`)
and `xi(i) ≠ xiRef(i)`, the derivative of the returned objective with
respect to `xi(i)` is `ζ·diagScale(i)·(xi(i) - xiRef(i))`, but the
gradient entry returned by either `evaluate` variant is
`ζ·diagScale(i)²·(xi(i) - xiRef(i))`, which differs from it: the
returned `gradObj` is not the gradient of the returned objective. -/
theorem restGrad_not_gradient (nVarP nCon : ℕ) (xiRef xi : ℕ → ℝ) (i : ℕ)
    (hi : i < nVarP) (href : 1 < |xiRef i|) (hne : xi i ≠ xiRef i) :
    HasDerivAt
      (fun t => restObj nVarP nCon (diagScaleOf xiRef) xiRef (Function.update xi i t))
      (zetaConst * diagScaleOf xiRef i * (xi i - xiRef i)) (xi i) ∧
    restGradSparse nVarP (diagScaleOf xiRef) xiRef xi i ≠
      zetaConst * diagScaleOf xiRef i * (xi i - xiRef i) ∧
    restGradDense nVarP (diagScaleOf xiRef) xiRef xi i ≠
      zetaConst * diagScaleOf xiRef i * (xi i - xiRef i) := by
  set d := diagScaleOf xiRef i with hd
  have hd_eq : d = 1 / |xiRef i| := by rw [hd]; unfold diagScaleOf; rw [if_pos href]
  have hd_pos : 0 < d := by
    rw [hd_eq]; positivity
  have hd_lt : d < 1 := by
    rw [hd_eq, div_lt_one (lt_trans one_pos href)]; exact href
  set r := xiRef i with hr
  set Δ := xi i - r with hΔ
  have hΔne : Δ ≠ 0 := sub_ne_zero.mpr hne
  constructor
  · -- the derivative of the returned objective in coordinate i
    have hconst :
        ∀ t, restObj nVarP nCon (diagScaleOf xiRef) xiRef (Function.update xi i t) =
          (0.5 * rhoConst *
              (∑ k in Finset.range nCon, xi (nVarP + k) * xi (nVarP + k)) +
            0.5 * zetaConst *
              ∑ k in (Finset.range nVarP).erase i,
                diagScaleOf xiRef k * ((xi k - xiRef k) * (xi k - xiRef k))) +
          0.5 * zetaConst * d * ((t - r) * (t - r)) := by
      intro t
      unfold restObj
      have hs : ∀ k ∈ Finset.range nCon,
          Function.update xi i t (nVarP + k) * Function.update xi i t (nVarP + k) =
            xi (nVarP + k) * xi (nVarP + k) := by
        intro k _
        rw [Function.update_noteq (by omega)]
      rw [Finset.sum_congr rfl hs]
      have hmem : i ∈ Finset.range nVarP := Finset.mem_range.mpr hi
      rw [← Finset.add_sum_erase _ _ hmem]
      have herase : ∀ k ∈ (Finset.range nVarP).erase i,
          diagScaleOf xiRef k *
              ((Function.update xi i t k - xiRef k) * (Function.update xi i t k - xiRef k)) =
            diagScaleOf xiRef k * ((xi k - xiRef k) * (xi k - xiRef k)) := by
        intro k hk
        rw [Function.update_noteq (Finset.ne_of_mem_erase hk)]
      rw [Finset.sum_congr rfl herase, Function.update_same]
      ring
    have hderiv : HasDerivAt (fun t : ℝ => (t - r) * (t - r)) ((xi i - r) + (xi i - r))
        (xi i) := by
      have h1 := ((hasDerivAt_id (xi i)).sub_const r).mul ((hasDerivAt_id (xi i)).sub_const r)
      simpa using h1
    have h2 := (hderiv.const_mul (0.5 * zetaConst * d)).const_add
      (0.5 * rhoConst * (∑ k in Finset.range nCon, xi (nVarP + k) * xi (nVarP + k)) +
        0.5 * zetaConst *
          ∑ k in (Finset.range nVarP).erase i,
            diagScaleOf xiRef k * ((xi k - xiRef k) * (xi k - xiRef k)))
    have hfun : (fun t => restObj nVarP nCon (diagScaleOf xiRef) xiRef
        (Function.update xi i t)) =
        fun t =>
          (0.5 * rhoConst * (∑ k in Finset.range nCon, xi (nVarP + k) * xi (nVarP + k)) +
            0.5 * zetaConst *
              ∑ k in (Finset.range nVarP).erase i,
                diagScaleOf xiRef k * ((xi k - xiRef k) * (xi k - xiRef k))) +
          0.5 * zetaConst * d * ((t - r) * (t - r)) := funext hconst
    rw [hfun]
    convert h2 using 1
    rw [hΔ]
    ring
  · have hkey : zetaConst * d * Δ ≠ 0 :=
      mul_ne_zero (mul_ne_zero (by norm_num [zetaConst]) (ne_of_gt hd_pos)) hΔne
    constructor
    · unfold restGradSparse
      rw [if_pos hi]
      intro h
      have h' : zetaConst * d * Δ * d = zetaConst * d * Δ * 1 := by
        rw [mul_one]
        calc zetaConst * d * Δ * d = zetaConst * d * d * (xi i - r) := by rw [hΔ]; ring
          _ = zetaConst * d * (xi i - r) := h
          _ = zetaConst * d * Δ := by rw [hΔ]
      exact (ne_of_lt hd_lt) (mul_left_cancel₀ hkey h')
    · unfold restGradDense
      rw [if_pos hi]
      intro h
      have h' : zetaConst * d * Δ * d = zetaConst * d * Δ * 1 := by
        rw [mul_one]
        calc zetaConst * d * Δ * d = zetaConst * d * d * (xi i - r) := by rw [hΔ]; ring
          _ = zetaConst * d * (xi i - r) := h
          _ = zetaConst * d * Δ := by rw [hΔ]
      exact (ne_of_lt hd_lt) (mul_left_cancel₀ hkey h')

/-- Witness for C9: `nVarP = 1`, `nCon = 0`, `xiRef = 2`, `xi = 3`. -/
theorem restGrad_not_gradient_witness :
    HasDerivAt
      (fun t => restObj 1 0 (diagScaleOf fun _ => 2) (fun _ => 2)
        (Function.update (fun _ => 3) 0 t))
      (zetaConst * diagScaleOf (fun _ => 2) 0 * ((fun _ : ℕ => (3 : ℝ)) 0 - 2)) 3 ∧
    restGradSparse 1 (diagScaleOf fun _ => 2) (fun _ => 2) (fun _ => 3) 0 ≠
      zetaConst * diagScaleOf (fun _ => 2) 0 * ((fun _ : ℕ => (3 : ℝ)) 0 - 2) ∧
    restGradDense 1 (diagScaleOf fun _ => 2) (fun _ => 2) (fun _ => 3) 0 ≠
      zetaConst * diagScaleOf (fun _ => 2) 0 * ((fun _ : ℕ => (3 : ℝ)) 0 - 2) :=
  restGrad_not_gradient 1 0 (fun _ => 2) (fun _ => 3) 0 (by norm_num)
    (by norm_num) (by norm_num)

/-! ### Sparse Hessian conversion (`SQPiterate::convertHessian`, sparse
variant)

The sparse `convertHessian` walks the diagonal blocks in order; for block
`iBlock` at offset `rowOffset` it emits, for each local column `i`, the
entries `hess_[iBlock](i,j)` with `|·| > eps` in row order `j = 0..`,
recording `hessNz_[count]`, `hessIndRow_[count] = j + rowOffset`, the
per-column start indices `hessIndCol_`, and finally, for each column `j`,
scans `for (i=hessIndCol_[j]; i<hessIndCol_[j+1] && hessIndRow_[i]<j; i++)`
and stores the stopping index in `hessIndLo_[j]`. -/

/-- One diagonal Hessian block: its dimension and its element accessor
(a `SymMatrix`, so the accessor is symmetric; symmetry is carried as a
hypothesis where needed). -/
structure HBlock where
  sz : ℕ
  val : ℕ → ℕ → ℝ

/-- Default block (used only as `getD` fallback). -/
def HBlock.zero : HBlock := ⟨0, fun _ _ => 0⟩

/-- Entries emitted for local column `i` of block `B` at row offset
`rowOff`: value and global row index, in emission order. -/
noncomputable def colEntries (eps : ℝ) (rowOff : ℕ) (B : HBlock) (i : ℕ) :
    List (ℝ × ℕ) :=
  (List.range B.sz).filterMap fun j =>
    if eps < |B.val i j| then some (B.val i j, rowOff + j) else none

/-- All emitted columns, blocks in order at successive offsets. -/
noncomputable def allCols (eps : ℝ) : ℕ → List HBlock → List (List (ℝ × ℕ))
  | _, [] => []
  | off, B :: rest =>
    ((List.range B.sz).map fun i => colEntries eps off B i) ++ allCols eps (off + B.sz) rest

/-- Offset (both row and column) of block `b` in the assembled matrix. -/
def offsetOf (blocks : List HBlock) (b : ℕ) : ℕ :=
  ((blocks.take b).map HBlock.sz).sum

/-- Total dimension of the assembled block-diagonal matrix. -/
def totalSize (blocks : List HBlock) : ℕ :=
  (blocks.map HBlock.sz).sum

/-- The emitted `hessNz_` array. -/
noncomputable def hessNzOf (eps : ℝ) (blocks : List HBlock) : List ℝ :=
  (allCols eps 0 blocks).flatten.map Prod.fst

/-- The emitted `hessIndRow_` array. -/
noncomputable def hessIndRowOf (eps : ℝ) (blocks : List HBlock) : List ℕ :=
  (allCols eps 0 blocks).flatten.map Prod.snd

/-- The emitted `hessIndCol_` array: entry `c` is the number of entries
emitted before column `c` starts. -/
noncomputable def hessIndColOf (eps : ℝ) (blocks : List HBlock) (c : ℕ) : ℕ :=
  (((allCols eps 0 blocks).take c).map List.length).sum

/-- The `hessIndLo_` scan `for (i=indCol[j]; i<indCol[j+1] && indRow[i]<j; i++)`. -/
def loFind (rows : List ℕ) (j e : ℕ) (i : ℕ) : ℕ :=
  if h : i < e ∧ rows.getD i 0 < j then loFind rows j e (i + 1) else i
termination_by e - i
decreasing_by omega

/-- The emitted `hessIndLo_` array. -/
noncomputable def hessIndLoOf (eps : ℝ) (blocks : List HBlock) (j : ℕ) : ℕ :=
  loFind (hessIndRowOf eps blocks) j (hessIndColOf eps blocks (j + 1))
    (hessIndColOf eps blocks j)

/-- The slice of a flat array holding one column's entries. -/
def colSlice {α : Type} (l : List α) (s e : ℕ) : List α :=
  (l.take e).drop s

/-- Reading entry `(r, c)` back from the Harwell-Boeing data: scan
column `c`'s slice for row `r`; absent entries read as `0`. -/
def readCCS (nz : List ℝ) (rows : List ℕ) (indCol : ℕ → ℕ) (r c : ℕ) : ℝ :=
  ((((colSlice nz (indCol c) (indCol (c + 1)))).zip
      (colSlice rows (indCol c) (indCol (c + 1)))).find? fun e => e.2 = r).elim 0 Prod.fst

theorem allCols_length (eps : ℝ) (off : ℕ) (blocks : List HBlock) :
    (allCols eps off blocks).length = totalSize blocks := by
  induction blocks generalizing off with
  | nil => rfl
  | cons B rest ih =>
    simp [allCols, totalSize, List.length_append, ih, List.sum_cons]

theorem zip_map_fst_snd {α β : Type} (l : List (α × β)) :
    (l.map Prod.fst).zip (l.map Prod.snd) = l := by
  induction l with
  | nil => rfl
  | cons x t ih => simp [ih]

theorem offsetOf_succ (blocks : List HBlock) (b : ℕ) (hb : b < blocks.length) :
    offsetOf blocks (b + 1) = offsetOf blocks b + (blocks.getD b HBlock.zero).sz := by
  unfold offsetOf
  rw [List.take_succ, List.map_append, List.sum_append]
  congr 1
  rw [List.getElem?_eq_getElem hb, List.getD_eq_getElem _ _ hb]
  simp

theorem offsetOf_add_le (blocks : List HBlock) (b : ℕ) (hb : b < blocks.length) :
    offsetOf blocks b + (blocks.getD b HBlock.zero).sz ≤ totalSize blocks := by
  rw [← offsetOf_succ blocks b hb]
  unfold offsetOf totalSize
  conv_rhs => rw [← List.take_append_drop (b + 1) blocks]
  rw [List.map_append, List.sum_append]
  exact Nat.le_add_right _ _

theorem hessIndColOf_mono (eps : ℝ) (blocks : List HBlock) (c : ℕ) :
    hessIndColOf eps blocks c ≤ hessIndColOf eps blocks (c + 1) := by
  unfold hessIndColOf
  rw [List.take_succ, List.map_append, List.sum_append]
  exact Nat.le_add_right _ _

theorem allCols_getD (eps : ℝ) (blocks : List HBlock) (off0 b q : ℕ)
    (hb : b < blocks.length) (hq : q < (blocks.getD b HBlock.zero).sz) :
    (allCols eps off0 blocks).getD (offsetOf blocks b + q) [] =
      colEntries eps (off0 + offsetOf blocks b) (blocks.getD b HBlock.zero) q := by
  induction blocks generalizing off0 b with
  | nil => exact absurd hb (by simp)
  | cons B rest ih =>
    have hunf : allCols eps off0 (B :: rest) =
        ((List.range B.sz).map fun i => colEntries eps off0 B i) ++
          allCols eps (off0 + B.sz) rest := rfl
    have hmaplen : ((List.range B.sz).map fun i => colEntries eps off0 B i).length = B.sz := by
      simp
    cases b with
    | zero =>
      have hq0 : q < B.sz := hq
      have hoff : offsetOf (B :: rest) 0 = 0 := rfl
      rw [hoff, Nat.zero_add, Nat.add_zero, hunf,
        List.getD_append _ _ _ _ (by rw [hmaplen]; exact hq0),
        List.getD_eq_getElem _ _ (by rw [hmaplen]; exact hq0)]
      simp
    | succ b' =>
      have hb' : b' < rest.length := by simpa using hb
      have hoff : offsetOf (B :: rest) (b' + 1) = B.sz + offsetOf rest b' := by
        unfold offsetOf
        rw [List.take_succ_cons, List.map_cons, List.sum_cons]
      have hgd : (B :: rest).getD (b' + 1) HBlock.zero = rest.getD b' HBlock.zero := rfl
      rw [hoff, hgd, hunf,
        List.getD_append_right _ _ _ _ (by rw [hmaplen]; omega)]
      rw [show B.sz + offsetOf rest b' + q -
          ((List.range B.sz).map fun i => colEntries eps off0 B i).length =
          offsetOf rest b' + q by rw [hmaplen]; omega]
      rw [ih (off0 + B.sz) b' hb' (by rwa [hgd] at hq), Nat.add_assoc]

theorem flatten_colSlice {α : Type} (cols : List (List α)) (c : ℕ) (hc : c < cols.length) :
    ((cols.flatten.take (((cols.take (c + 1)).map List.length).sum)).drop
      (((cols.take c).map List.length).sum)) = cols.getD c [] := by
  rw [List.map_take, List.map_take, List.getD_eq_getElem _ _ hc]
  exact List.drop_take_succ_flatten_eq_getElem cols c hc

theorem find_filterMap_row (eps : ℝ) (rowOff : ℕ) (B : HBlock) (q p : ℕ) (l : List ℕ) :
    ((l.filterMap fun j =>
        if eps < |B.val q j| then some (B.val q j, rowOff + j) else none).find?
      fun e => e.2 = rowOff + p) =
      if p ∈ l ∧ eps < |B.val q p| then some (B.val q p, rowOff + p) else none := by
  induction l with
  | nil => simp
  | cons j t ih =>
    by_cases hj : eps < |B.val q j|
    · rw [List.filterMap_cons_some (by rw [if_pos hj])]
      by_cases hjp : j = p
      · subst hjp
        rw [List.find?_cons_of_pos _ (by simp)]
        rw [if_pos ⟨List.mem_cons_self j t, hj⟩]
      · rw [List.find?_cons_of_neg _ (by simp; omega), ih]
        by_cases hp : p ∈ t ∧ eps < |B.val q p|
        · rw [if_pos hp, if_pos ⟨List.mem_cons_of_mem j hp.1, hp.2⟩]
        · rw [if_neg hp, if_neg (by
            rintro ⟨hmem, hcond⟩
            rcases List.mem_cons.mp hmem with rfl | hmem'
            · exact hjp rfl
            · exact hp ⟨hmem', hcond⟩)]
    · rw [List.filterMap_cons_none (by rw [if_neg hj]), ih]
      by_cases hjp : j = p
      · subst hjp
        rw [if_neg (fun h => hj h.2), if_neg (fun h => hj h.2)]
      · by_cases hp : p ∈ t ∧ eps < |B.val q p|
        · rw [if_pos hp, if_pos ⟨List.mem_cons_of_mem j hp.1, hp.2⟩]
        · rw [if_neg hp, if_neg (by
            rintro ⟨hmem, hcond⟩
            rcases List.mem_cons.mp hmem with rfl | hmem'
            · exact hjp rfl
            · exact hp ⟨hmem', hcond⟩)]

theorem colEntries_row_bounds (eps : ℝ) (rowOff : ℕ) (B : HBlock) (q : ℕ) :
    ∀ e ∈ colEntries eps rowOff B q, rowOff ≤ e.2 ∧ e.2 < rowOff + B.sz := by
  intro e he
  unfold colEntries at he
  rw [List.mem_filterMap] at he
  obtain ⟨j, hjmem, hj⟩ := he
  rw [List.mem_range] at hjmem
  by_cases hc : eps < |B.val q j|
  · rw [if_pos hc] at hj
    have he' := Option.some_inj.mp hj
    subst he'
    exact ⟨Nat.le_add_right _ _, by omega⟩
  · rw [if_neg hc] at hj
    exact absurd hj (by simp)

theorem loFind_spec (rows : List ℕ) (j e : ℕ) :
    ∀ (d i : ℕ), e - i ≤ d → i ≤ e →
      i ≤ loFind rows j e i ∧ loFind rows j e i ≤ e ∧
      (∀ k, i ≤ k → k < loFind rows j e i → rows.getD k 0 < j) ∧
      (loFind rows j e i < e → j ≤ rows.getD (loFind rows j e i) 0) := by
  intro d
  induction d with
  | zero =>
    intro i hd hie
    have hieq : i = e := by omega
    subst hieq
    rw [loFind, dif_neg (by omega)]
    exact ⟨le_rfl, le_rfl, fun k hk1 hk2 => absurd (lt_of_le_of_lt hk1 hk2) (lt_irrefl i),
      fun h => absurd h (lt_irrefl i)⟩
  | succ d ih =>
    intro i hd hie
    by_cases h : i < e ∧ rows.getD i 0 < j
    · rw [loFind, dif_pos h]
      obtain ⟨h1, h2, h3, h4⟩ := ih (i + 1) (by omega) (by omega)
      refine ⟨by omega, h2, ?_, h4⟩
      intro k hk1 hk2
      rcases Nat.eq_or_lt_of_le hk1 with rfl | hk1'
      · exact h.2
      · exact h3 k (by omega) hk2
    · rw [loFind, dif_neg h]
      exact ⟨le_rfl, hie,
        fun k hk1 hk2 => absurd (lt_of_le_of_lt hk1 hk2) (lt_irrefl i),
        fun hlt => by omega⟩

/-- C5: round trip of the sparse `convertHessian`.  For every block `b`
(with symmetric accessor, as `SymMatrix` guarantees) and local indices
`p, q`: reading entry `(off+p, off+q)` back from the emitted
Harwell-Boeing data returns the block entry exactly when its magnitude
exceeds `eps` and `0` otherwise — so entries above the drop threshold
are reproduced exactly and only entries at or below it are omitted;
every entry read back outside the row range of the column's block is `0`
(the read-back matrix is block diagonal); and for every column `j`,
`hessIndLo_[j]` is the index of the first stored entry of column `j`
whose row index is on or below the diagonal (everything stored before it
has row index `< j`, and it has row index `≥ j` when it exists). -/
theorem convertHessian_sparse_roundtrip (eps : ℝ) (blocks : List HBlock) (b p q : ℕ)
    (hb : b < blocks.length)
    (hp : p < (blocks.getD b HBlock.zero).sz) (hq : q < (blocks.getD b HBlock.zero).sz)
    (hSym : ∀ i j : ℕ, (blocks.getD b HBlock.zero).val i j =
      (blocks.getD b HBlock.zero).val j i) :
    (readCCS (hessNzOf eps blocks) (hessIndRowOf eps blocks) (hessIndColOf eps blocks)
        (offsetOf blocks b + p) (offsetOf blocks b + q) =
      if eps < |(blocks.getD b HBlock.zero).val p q| then (blocks.getD b HBlock.zero).val p q
      else 0) ∧
    (∀ r : ℕ,
      r < offsetOf blocks b ∨ offsetOf blocks b + (blocks.getD b HBlock.zero).sz ≤ r →
      readCCS (hessNzOf eps blocks) (hessIndRowOf eps blocks) (hessIndColOf eps blocks) r
        (offsetOf blocks b + q) = 0) ∧
    (∀ j : ℕ, j < totalSize blocks →
      hessIndColOf eps blocks j ≤ hessIndLoOf eps blocks j ∧
      hessIndLoOf eps blocks j ≤ hessIndColOf eps blocks (j + 1) ∧
      (∀ k, hessIndColOf eps blocks j ≤ k → k < hessIndLoOf eps blocks j →
        (hessIndRowOf eps blocks).getD k 0 < j) ∧
      (hessIndLoOf eps blocks j < hessIndColOf eps blocks (j + 1) →
        j ≤ (hessIndRowOf eps blocks).getD (hessIndLoOf eps blocks j) 0)) := by
  have hc_lt : offsetOf blocks b + q < (allCols eps 0 blocks).length := by
    rw [allCols_length]
    have := offsetOf_add_le blocks b hb
    omega
  have hcol : (allCols eps 0 blocks).getD (offsetOf blocks b + q) [] =
      colEntries eps (offsetOf blocks b) (blocks.getD b HBlock.zero) q := by
    have h := allCols_getD eps blocks 0 b q hb hq
    rwa [Nat.zero_add] at h
  have hslice :
      (((allCols eps 0 blocks).flatten.take
          (hessIndColOf eps blocks (offsetOf blocks b + q + 1))).drop
        (hessIndColOf eps blocks (offsetOf blocks b + q))) =
      colEntries eps (offsetOf blocks b) (blocks.getD b HBlock.zero) q := by
    rw [← hcol]
    exact flatten_colSlice (allCols eps 0 blocks) (offsetOf blocks b + q) hc_lt
  have hnz : colSlice (hessNzOf eps blocks)
      (hessIndColOf eps blocks (offsetOf blocks b + q))
      (hessIndColOf eps blocks (offsetOf blocks b + q + 1)) =
      (colEntries eps (offsetOf blocks b) (blocks.getD b HBlock.zero) q).map Prod.fst := by
    unfold hessNzOf colSlice
    rw [← List.map_take, ← List.map_drop, hslice]
  have hrows : colSlice (hessIndRowOf eps blocks)
      (hessIndColOf eps blocks (offsetOf blocks b + q))
      (hessIndColOf eps blocks (offsetOf blocks b + q + 1)) =
      (colEntries eps (offsetOf blocks b) (blocks.getD b HBlock.zero) q).map Prod.snd := by
    unfold hessIndRowOf colSlice
    rw [← List.map_take, ← List.map_drop, hslice]
  have hzip : ((colSlice (hessNzOf eps blocks)
      (hessIndColOf eps blocks (offsetOf blocks b + q))
      (hessIndColOf eps blocks (offsetOf blocks b + q + 1))).zip
        (colSlice (hessIndRowOf eps blocks)
          (hessIndColOf eps blocks (offsetOf blocks b + q))
          (hessIndColOf eps blocks (offsetOf blocks b + q + 1)))) =
      colEntries eps (offsetOf blocks b) (blocks.getD b HBlock.zero) q := by
    rw [hnz, hrows, zip_map_fst_snd]
  refine ⟨?_, ?_, ?_⟩
  · simp only [readCCS]
    rw [hzip]
    unfold colEntries
    rw [find_filterMap_row]
    by_cases hval : eps < |(blocks.getD b HBlock.zero).val q p|
    · rw [if_pos ⟨List.mem_range.mpr hp, hval⟩]
      rw [hSym q p] at hval
      simp only [Option.elim]
      rw [hSym q p, if_pos hval]
    · rw [if_neg (by rintro ⟨-, hcond⟩; exact hval hcond)]
      simp only [Option.elim]
      rw [if_neg (by rw [hSym p q]; exact hval)]
  · intro r hr
    simp only [readCCS]
    rw [hzip]
    rw [List.find?_eq_none.mpr (fun x hx => by
      obtain ⟨h1, h2⟩ := colEntries_row_bounds eps (offsetOf blocks b)
        (blocks.getD b HBlock.zero) q x hx
      simp only [decide_eq_true_eq]
      omega)]
    rfl
  · intro j _
    have hmono := hessIndColOf_mono eps blocks j
    obtain ⟨h1, h2, h3, h4⟩ := loFind_spec (hessIndRowOf eps blocks) j
      (hessIndColOf eps blocks (j + 1))
      (hessIndColOf eps blocks (j + 1) - hessIndColOf eps blocks j)
      (hessIndColOf eps blocks j) le_rfl hmono
    exact ⟨h1, h2, h3, h4⟩

/-- Witness for C5: a single `1 × 1` block holding `2`, `eps = 1`. -/
theorem convertHessian_sparse_roundtrip_witness :
    (readCCS (hessNzOf 1 [HBlock.mk 1 fun _ _ => 2]) (hessIndRowOf 1 [HBlock.mk 1 fun _ _ => 2])
        (hessIndColOf 1 [HBlock.mk 1 fun _ _ => 2])
        (offsetOf [HBlock.mk 1 fun _ _ => 2] 0 + 0) (offsetOf [HBlock.mk 1 fun _ _ => 2] 0 + 0) =
      if (1 : ℝ) < |(([HBlock.mk 1 fun _ _ => 2].getD 0 HBlock.zero).val 0 0)| then
        ([HBlock.mk 1 fun _ _ => 2].getD 0 HBlock.zero).val 0 0
      else 0) ∧
    (hessIndColOf 1 [HBlock.mk 1 fun _ _ => 2] 0 ≤ hessIndLoOf 1 [HBlock.mk 1 fun _ _ => 2] 0) := by
  have h := convertHessian_sparse_roundtrip 1 [HBlock.mk 1 fun _ _ => 2] 0 0 0
    (by norm_num) (by norm_num [HBlock.zero]) (by norm_num [HBlock.zero]) (fun _ _ => rfl)
  exact ⟨h.1, (h.2.2 0 (by norm_num [totalSize])).1⟩

end BlockSQP
